import Mathlib

/-!
# Verification of the TorchScript module slot-traversal engine

Shallow embedding of `torch::jit::Module` slot enumeration
(`SlotCursor`, `slot_iterator_impl`, `slot_list_impl`, the traversal
policies `ModulePolicy`, `ParameterPolicy`, `BufferPolicy`,
`AttributePolicy` and the `NamedPolicy` wrapper) from
`torch/csrc/jit/api/module.h`.

Modelling choices:
* A module object and its class descriptor are fused: a `Module` is the
  ordered list of its slots, each slot carrying the declared attribute
  name, declared type, the `is_parameter` classification bit of the
  class descriptor, and the stored `IValue`.
* Declared types are abstracted to the three kinds the traversal code
  inspects: module class types (`getAttribute(i)->is_module()`),
  tensor types (`isSubtypeOf(TensorType::get())`), and everything else.
* Tensor payloads are opaque naturals; likewise non-tensor leaf values.
* `IValue::toModule` / `toTensor` throw in C++ when the value has the
  wrong tag; they are modelled with `Option` (and a default empty
  module for `toModule`, which the traversal only reaches on trees that
  violate structural validity).
* The C++ `while` loops of the iterator are modelled with explicit
  fuel; the fuel actually used is an exact step-count measure of the
  traversal, and lemmas below show it always suffices.
* The cursor stack `std::vector<SlotCursor> cursors_` is modelled as a
  `List SlotCursor` whose head is the *back* of the vector (the top of
  the traversal stack); bottom-first vector order, as consumed by
  `NamedPolicy::create`, is recovered with `List.reverse`.
-/

namespace TorchModule

/-- The three kinds of declared slot type the traversal engine inspects. -/
inductive Ty : Type where
  | tensorTy : Ty
  | moduleTy : Ty
  | otherTy : Ty
deriving DecidableEq, Repr

/-- `ClassType::is_module()` on a declared attribute type. -/
def Ty.is_module : Ty → Bool
  | .moduleTy => true
  | _ => false

/-- `Type::isSubtypeOf(TensorType::get())` on a declared attribute type. -/
def Ty.isSubtypeOfTensor : Ty → Bool
  | .tensorTy => true
  | _ => false

mutual
/-- A module object together with its class descriptor: the ordered list
of slots (`ivalue::Object` slots, `ClassType` attribute metadata). -/
inductive Module : Type where
  | mk : List Slot → Module

/-- One named, typed slot of a module: attribute name, declared type,
`is_parameter` classification, and the stored value. -/
inductive Slot : Type where
  | mk : String → Ty → Bool → IValue → Slot

/-- A stored slot value: a tensor, a module object, or some other leaf. -/
inductive IValue : Type where
  | tensor : Nat → IValue
  | obj : Module → IValue
  | prim : Nat → IValue
end

instance : Inhabited Module := ⟨Module.mk []⟩
instance : Inhabited IValue := ⟨IValue.prim 0⟩
instance : Inhabited Slot := ⟨Slot.mk "" Ty.otherTy false (IValue.prim 0)⟩

def Module.slots : Module → List Slot
  | .mk s => s

def Slot.name : Slot → String
  | .mk n _ _ _ => n

def Slot.attrTy : Slot → Ty
  | .mk _ t _ _ => t

def Slot.is_param : Slot → Bool
  | .mk _ _ p _ => p

def Slot.value : Slot → IValue
  | .mk _ _ _ v => v

/-- `IValue::isTensor()`. -/
def IValue.isTensor : IValue → Bool
  | .tensor _ => true
  | _ => false

/-- `IValue::toTensor()`, with the C++ failure branch as `none`. -/
def IValue.toTensorOpt : IValue → Option Nat
  | .tensor t => some t
  | _ => none

/-- `IValue::toObject()`, with the C++ failure branch as `none`. -/
def IValue.toObjectOpt : IValue → Option Module
  | .obj m => some m
  | _ => none

/-- `IValue::toModule()`; the default is only reached on structurally
invalid trees, where the C++ code would throw. -/
def IValue.toModule (v : IValue) : Module :=
  (v.toObjectOpt).getD (Module.mk [])

/-- `ClassType::numAttributes()` (= `Object::slots().size()` on a
well-formed object). -/
def Module.numAttributes (m : Module) : Nat := m.slots.length

/-- `Object::num_slots()`. -/
def Module.num_slots (m : Module) : Nat := m.numAttributes

/-- `Object::getSlot(i)`. -/
def Module.getSlot (m : Module) (i : Nat) : IValue :=
  ((m.slots.getD i default).value)

/-- `ClassType::getAttribute(i)` (the declared type). -/
def Module.getAttributeTy (m : Module) (i : Nat) : Ty :=
  ((m.slots.getD i default).attrTy)

/-- `ClassType::getAttributeName(i)`. -/
def Module.getAttributeName (m : Module) (i : Nat) : String :=
  ((m.slots.getD i default).name)

/-- `ClassType::is_parameter(i)`. -/
def Module.is_parameter (m : Module) (i : Nat) : Bool :=
  ((m.slots.getD i default).is_param)

/-- `detail::SlotCursor`: a module handle and a slot offset
(`-1` means "the module itself"). -/
structure SlotCursor : Type where
  module_ : Module
  i_ : Int
deriving Inhabited

/-- The predicate/flag part of a traversal Policy
(`Policy::valid` and `Policy::all_slots`); the projection `create`
differs in output type per policy and is modelled separately. -/
structure Policy : Type where
  valid : Module → Nat → IValue → Bool
  all_slots : Bool

/-- `detail::ModulePolicy` (valid/all_slots part). -/
def ModulePolicy : Policy :=
  { valid := fun typ i _ => (typ.getAttributeTy i).is_module
    all_slots := false }

/-- `detail::ParameterPolicy` (valid/all_slots part). -/
def ParameterPolicy : Policy :=
  { valid := fun typ i v => typ.is_parameter i && v.isTensor
    all_slots := false }

/-- `detail::BufferPolicy` (valid/all_slots part). -/
def BufferPolicy : Policy :=
  { valid := fun typ i _ =>
      (typ.getAttributeTy i).isSubtypeOfTensor && !(typ.is_parameter i)
    all_slots := false }

/-- `detail::AttributePolicy` (valid/all_slots part). -/
def AttributePolicy : Policy :=
  { valid := fun _ _ _ => true
    all_slots := true }

/-- `detail::NamedPolicy<P>` delegates `valid` and `all_slots`
unchanged to `P`. -/
def NamedPolicyOf (P : Policy) : Policy :=
  { valid := P.valid, all_slots := P.all_slots }

/-- `ModulePolicy::create` (the `toObject` conversion that the C++
`Module` constructor performs), failure branch as `none`. -/
def ModulePolicy.createOpt (v : IValue) : Option Module :=
  v.toObjectOpt

/-- `ParameterPolicy::create` / `BufferPolicy::create`
(`std::move(v).toTensor()`), failure branch as `none`. -/
def TensorPolicy.createOpt (v : IValue) : Option Nat :=
  v.toTensorOpt

/-- `NamedPolicy<P>::nameFragment`:
`f.module_.type()->getAttributeName(f.i_)`. -/
def nameFragment (f : SlotCursor) : String :=
  f.module_.getAttributeName f.i_.toNat

/-- The name computed by `NamedPolicy<P>::create` from the cursor stack,
given in C++ vector order (bottom of the traversal stack first). -/
def NamedPolicy.createName (cursors : List SlotCursor) : String :=
  if cursors.length = 1 then
    if (cursors.getLastD default).i_ == -1 then ""
    else nameFragment (cursors.getLastD default)
  else String.intercalate "." (cursors.map nameFragment)

/-- `slot_iterator_impl<Policy>`: the cursor stack (head of the list is
the back of the C++ vector, i.e. the top of the traversal stack) and
the `recurse_` flag. -/
structure SlotIter : Type where
  cursors_ : List SlotCursor
  recurse_ : Bool

/-- `slot_iterator_impl::return_module()`. -/
def SlotIter.return_module (it : SlotIter) : Bool :=
  match it.cursors_ with
  | c :: _ => c.i_ == -1
  | [] => false

/-- `slot_iterator_impl::cur()`. -/
def SlotIter.cur (it : SlotIter) : IValue :=
  match it.cursors_ with
  | c :: _ =>
      if c.i_ == -1 then IValue.obj c.module_
      else c.module_.getSlot c.i_.toNat
  | [] => default

/-- `slot_iterator_impl::next()`: one raw step of the depth-first
pre-order walk.  The C++ code requires `!cursors_.empty()`; on an empty
stack we return the iterator unchanged (that call never happens in the
engine). -/
def SlotIter.next (it : SlotIter) : SlotIter :=
  match it.cursors_ with
  | [] => it
  | c :: rest =>
      if c.i_ == -1 then
        ⟨{ c with i_ := c.i_ + 1 } :: rest, it.recurse_⟩
      else if (c.module_.numAttributes : Int) ≤ c.i_ then
        match rest with
        | [] => ⟨[], it.recurse_⟩
        | p :: ps => ⟨{ p with i_ := p.i_ + 1 } :: ps, it.recurse_⟩
      else if it.recurse_ && (c.module_.getAttributeTy c.i_.toNat).is_module then
        ⟨⟨(c.module_.getSlot c.i_.toNat).toModule, 0⟩ :: c :: rest, it.recurse_⟩
      else
        ⟨{ c with i_ := c.i_ + 1 } :: rest, it.recurse_⟩

/-- `slot_iterator_impl::valid()` for a policy `P`. -/
def SlotIter.validAt (P : Policy) (it : SlotIter) : Bool :=
  match it.cursors_ with
  | c :: _ =>
      c.i_ < (c.module_.numAttributes : Int) &&
        P.valid c.module_ c.i_.toNat (c.module_.getSlot c.i_.toNat)
  | [] => false

/-- `operator!=` on slot iterators:
`a.cursors_.empty() != b.cursors_.empty()`. -/
def SlotIter.neq (a b : SlotIter) : Bool :=
  a.cursors_.isEmpty != b.cursors_.isEmpty

/-- The canonical end iterator `slot_iterator_impl()` (empty stack). -/
def SlotIter.endIter : SlotIter := ⟨[], false⟩

/-! ## Step-count measure

`scostList r l` is the exact number of `next` steps the walk (with
recursion flag `r`) spends on the slots `l`; `1` per ordinary slot, and
`1 + (steps inside the nested module, including its final pop)` per
slot that is descended into. -/

/-- The slot list of the module a slot's value converts to is smaller
than the slot itself (used for termination of tree recursions). -/
def sizeOf_toModule_slots_lt (s : Slot) :
    sizeOf s.value.toModule.slots < sizeOf s := by
  cases s with
  | mk n t p v =>
    cases v with
    | obj m =>
      cases m with
      | mk l =>
        simp [Slot.value, IValue.toModule, IValue.toObjectOpt, Module.slots]
        omega
    | tensor k =>
      simp [Slot.value, IValue.toModule, IValue.toObjectOpt, Module.slots]
      omega
    | prim k =>
      simp [Slot.value, IValue.toModule, IValue.toObjectOpt, Module.slots]
      omega

/-- Steps spent on a list of slots (excluding the final pop of the
enclosing frame). -/
def scostList (r : Bool) (l : List Slot) : Nat :=
  match l with
  | [] => 0
  | s :: rest =>
      (if r && s.attrTy.is_module then
        1 + (1 + scostList r s.value.toModule.slots)
       else 1) + scostList r rest
termination_by sizeOf l
decreasing_by
  all_goals have h := sizeOf_toModule_slots_lt s
  all_goals simp
  all_goals omega

/-- Steps contributed by the top frame of the traversal stack. -/
def tcost (r : Bool) (c : SlotCursor) : Nat :=
  (if c.i_ < 0 then 1 else 0) + scostList r (c.module_.slots.drop c.i_.toNat) + 1

/-- Steps contributed by a non-top frame (its current slot is mid-visit;
only the slots after it, plus its own pop, remain). -/
def ntcost (r : Bool) (c : SlotCursor) : Nat :=
  scostList r (c.module_.slots.drop (c.i_.toNat + 1)) + 1

/-- Exact number of `next` steps from a stack state to the empty stack. -/
def stackMeasure (r : Bool) : List SlotCursor → Nat
  | [] => 0
  | c :: rest => tcost r c + (rest.map (ntcost r)).sum

def SlotIter.measureR (it : SlotIter) : Nat :=
  stackMeasure it.recurse_ it.cursors_

/-- The well-indexedness needed for the measure: the top frame's offset
is at least `-1` and every lower frame's offset is non-negative. -/
def okStack : List SlotCursor → Prop
  | [] => True
  | c :: rest => -1 ≤ c.i_ ∧ ∀ p ∈ rest, 0 ≤ p.i_

/-- The full iterator-state invariant (claim C9): the top frame's offset
lies in `[-1, numAttributes]`, the sentinel `-1` occurs only when the
stack is that single frame, and every non-top frame's offset is a real
slot index (`0 ≤ i < numAttributes`). -/
def invStack : List SlotCursor → Prop
  | [] => True
  | c :: rest =>
      (-1 ≤ c.i_ ∧ c.i_ ≤ (c.module_.numAttributes : Int)) ∧
      (c.i_ = -1 → rest = []) ∧
      ∀ p ∈ rest, 0 ≤ p.i_ ∧ p.i_ < (p.module_.numAttributes : Int)

/-- `slot_iterator_impl::while_not_valid_next()` with explicit fuel. -/
def whileNotValidNext (P : Policy) : Nat → SlotIter → SlotIter
  | 0, it => it
  | fuel + 1, it =>
      if !it.cursors_.isEmpty && !it.return_module && !it.validAt P then
        whileNotValidNext P fuel it.next
      else it

/-- The skip loop run with exactly the measure as fuel (lemmas below show
the fuel is irrelevant once it is at least the measure). -/
def SlotIter.skip (P : Policy) (it : SlotIter) : SlotIter :=
  whileNotValidNext P it.measureR it

/-- The iterator constructor
`slot_iterator_impl(root, recurse, return_module)`: a single cursor
`{root, return_module ? -1 : 0}` followed by the skip loop. -/
def slotIterBegin (P : Policy) (root : Module) (recurse return_module : Bool) :
    SlotIter :=
  SlotIter.skip P ⟨[⟨root, if return_module then -1 else 0⟩], recurse⟩

/-- `slot_iterator_impl::next_valid()` (the body of `operator++`). -/
def SlotIter.next_valid (P : Policy) (it : SlotIter) : SlotIter :=
  if it.cursors_.isEmpty then it
  else SlotIter.skip P it.next

/-- `slot_list_impl<Policy>`: the view's root module, `recurse_` and
`return_module_` flags.  (The mutable `size_` cache is operational
detail; `size` below captures what `size()` returns.) -/
structure slot_list : Type where
  module_ : Module
  recurse_ : Bool
  return_module_ : Bool

/-- `slot_list_impl::begin()`. -/
def slot_list.begin (P : Policy) (l : slot_list) : SlotIter :=
  slotIterBegin P l.module_ l.recurse_ l.return_module_

/-- The element sequence produced by `begin()` / `operator*` /
`operator++`: each yielded element is recorded as the cursor stack at
the yield point together with `cur()`. -/
def seqElems (P : Policy) : Nat → SlotIter → List (List SlotCursor × IValue)
  | 0, _ => []
  | fuel + 1, it =>
      if it.cursors_.isEmpty then []
      else (it.cursors_, it.cur) :: seqElems P fuel (it.next_valid P)

/-- An equivalent element collector that takes one raw `next` step at a
time and records an element whenever the walk sits at a yield point
(the sentinel, or a slot the Policy accepts); a stepping stone between
the iterator's skip-loop formulation and the recursive counts below. -/
def runElems (P : Policy) : Nat → SlotIter → List (List SlotCursor × IValue)
  | 0, _ => []
  | fuel + 1, it =>
      if it.cursors_.isEmpty then []
      else if it.return_module || it.validAt P then
        (it.cursors_, it.cur) :: runElems P fuel it.next
      else runElems P fuel it.next

/-- Iterating a `slot_list_impl` from `begin()` to `end()` and
collecting every dereferenced element. -/
def slot_list.toList (P : Policy) (l : slot_list) :
    List (List SlotCursor × IValue) :=
  let it0 : SlotIter :=
    ⟨[⟨l.module_, if l.return_module_ then -1 else 0⟩], l.recurse_⟩
  seqElems P (it0.measureR + 1) (it0.skip P)

/-- `slot_list_impl::size()`: the `all_slots && !recurse && !return_module`
fast path returns `num_slots()`; otherwise the view is iterated
exhaustively and the elements counted. -/
def slot_list.size (P : Policy) (l : slot_list) : Nat :=
  if !l.recurse_ && !l.return_module_ && P.all_slots then l.module_.num_slots
  else (slot_list.toList P l).length

/-- The element sequence of the `NamedPolicy<P>` view: same traversal
(`NamedPolicy` delegates `valid`/`all_slots` to `P`), with
`NamedPolicy::create`'s dotted name computed from each yield's cursor
stack taken in C++ vector order. -/
def slot_list.namedToList (P : Policy) (l : slot_list) :
    List (String × IValue) :=
  (slot_list.toList P l).map
    (fun e => (NamedPolicy.createName e.1.reverse, e.2))

/-! ## Expected visit counts

A direct recursive computation, over the tree structure, of how many
elements the walk yields; the theorems below prove that the iterator
agrees with it. -/

/-- Number of elements the walk yields while scanning the slots `rest`
of module `m` starting at slot index `i` (with `rest = m.slots.drop i`),
including elements found inside nested modules when `r` is set, and not
including anything contributed by outer frames. -/
def dsuffixCount (P : Policy) (r : Bool) (m : Module) (i : Nat)
    (rest : List Slot) : Nat :=
  match rest with
  | [] => 0
  | s :: rest' =>
      (if P.valid m i s.value then 1 else 0) +
      (if r && s.attrTy.is_module then
        dsuffixCount P r s.value.toModule 0 s.value.toModule.slots
       else 0) +
      dsuffixCount P r m (i + 1) rest'
termination_by sizeOf rest
decreasing_by
  all_goals have h := sizeOf_toModule_slots_lt s
  all_goals simp
  all_goals omega

/-- Elements still to be yielded by the non-top frames of a stack: each
such frame resumes, after its nested module is popped, at the slot
after its current one. -/
def dcontCount (P : Policy) (r : Bool) : List SlotCursor → Nat
  | [] => 0
  | c :: rest =>
      dsuffixCount P r c.module_ (c.i_.toNat + 1)
        (c.module_.slots.drop (c.i_.toNat + 1)) +
      dcontCount P r rest

/-- Total number of elements yielded from a stack state onward. -/
def dstackCount (P : Policy) (r : Bool) : List SlotCursor → Nat
  | [] => 0
  | c :: rest =>
      (if c.i_ == -1 then
        1 + dsuffixCount P r c.module_ 0 c.module_.slots
       else
        dsuffixCount P r c.module_ c.i_.toNat
          (c.module_.slots.drop c.i_.toNat)) +
      dcontCount P r rest

/-- Sum over the slots `l` of the total slot count of each nested module
reachable through a module-typed slot. -/
def totalList (l : List Slot) : Nat :=
  match l with
  | [] => 0
  | s :: rest =>
      (if s.attrTy.is_module then
        s.value.toModule.slots.length + totalList s.value.toModule.slots
       else 0) +
      totalList rest
termination_by sizeOf l
decreasing_by
  all_goals have h := sizeOf_toModule_slots_lt s
  all_goals simp
  all_goals omega

/-- The aggregate slot count of a tree: the slots of every container
reachable from the root (the root included). -/
def Module.totalSlots (m : Module) : Nat :=
  m.slots.length + totalList m.slots

/-! ## Structural validity

`addOrCheckAttribute` guarantees that a stored value's tag agrees with
the slot's declared type; traversal assumes this already-checked tree. -/

/-- One slot is well-typed: the stored value's tag agrees with the
declared attribute type. -/
def Slot.wellTyped (s : Slot) : Bool :=
  match s.attrTy, s.value with
  | Ty.tensorTy, IValue.tensor _ => true
  | Ty.moduleTy, IValue.obj _ => true
  | Ty.otherTy, IValue.prim _ => true
  | _, _ => false

/-- Every slot of the list is well-typed, recursively into nested
modules. -/
def wfSlots (l : List Slot) : Bool :=
  match l with
  | [] => true
  | s :: rest => (s.wellTyped && wfSlots s.value.toModule.slots) && wfSlots rest
termination_by sizeOf l
decreasing_by
  all_goals have h := sizeOf_toModule_slots_lt s
  all_goals simp
  all_goals omega

/-- A structurally valid tree. -/
def Module.wf (m : Module) : Bool := wfSlots m.slots

theorem wfSlots_mem {l : List Slot} (hl : wfSlots l = true) :
    ∀ s ∈ l, s.wellTyped = true := by
  induction l with
  | nil => intro s hs; cases hs
  | cons a rest ih =>
    rw [wfSlots] at hl
    simp only [Bool.and_eq_true] at hl
    intro s hs
    rcases List.mem_cons.mp hs with h | h
    · subst h
      exact hl.1.1
    · exact ih hl.2 s h

theorem wf_slot_wellTyped {m : Module} (hwf : m.wf = true) {i : Nat}
    (hi : i < m.numAttributes) :
    (m.slots.getD i default).wellTyped = true := by
  apply wfSlots_mem hwf
  rw [List.getD_eq_getElem?_getD]
  rw [List.getElem?_eq_getElem hi]
  exact List.getElem_mem hi

/-- C2: on a structurally valid tree, a slot whose declared type is the
tensor kind is accepted by exactly one of `ParameterPolicy::valid` and
`BufferPolicy::valid`; `ModulePolicy::valid` accepts a slot exactly when
its declared type is a module class type; and no slot is accepted by
more than one of the three policies. -/
theorem c2_policy_partition (m : Module) (hwf : m.wf = true) (i : Nat)
    (hi : i < m.numAttributes) :
    ((m.getAttributeTy i) = Ty.tensorTy →
      ((ParameterPolicy.valid m i (m.getSlot i) = true) ↔
        ¬(BufferPolicy.valid m i (m.getSlot i) = true))) ∧
    ((ModulePolicy.valid m i (m.getSlot i) = true) ↔
      m.getAttributeTy i = Ty.moduleTy) ∧
    ¬(ParameterPolicy.valid m i (m.getSlot i) = true ∧
      BufferPolicy.valid m i (m.getSlot i) = true) ∧
    ¬(ParameterPolicy.valid m i (m.getSlot i) = true ∧
      ModulePolicy.valid m i (m.getSlot i) = true) ∧
    ¬(BufferPolicy.valid m i (m.getSlot i) = true ∧
      ModulePolicy.valid m i (m.getSlot i) = true) := by
  have hs := wf_slot_wellTyped hwf hi
  rcases hdef : m.slots.getD i default with ⟨n, t, p, v⟩
  rw [hdef] at hs
  simp only [ParameterPolicy, BufferPolicy, ModulePolicy, Module.is_parameter,
    Module.getAttributeTy, Module.getSlot, hdef, Slot.wellTyped, Slot.attrTy,
    Slot.is_param, Slot.value] at *
  cases t <;> cases v <;> cases p <;>
    simp_all [Ty.is_module, Ty.isSubtypeOfTensor, IValue.isTensor]

/-- Witness for C2 at a concrete one-parameter module. -/
theorem c2_policy_partition_witness :
    (Module.mk [Slot.mk "w" Ty.tensorTy true (IValue.tensor 5)]).wf = true ∧
    (0 < (Module.mk [Slot.mk "w" Ty.tensorTy true (IValue.tensor 5)]).numAttributes) ∧
    ((ParameterPolicy.valid (Module.mk [Slot.mk "w" Ty.tensorTy true (IValue.tensor 5)]) 0
        ((Module.mk [Slot.mk "w" Ty.tensorTy true (IValue.tensor 5)]).getSlot 0) = true) ↔
      ¬(BufferPolicy.valid (Module.mk [Slot.mk "w" Ty.tensorTy true (IValue.tensor 5)]) 0
        ((Module.mk [Slot.mk "w" Ty.tensorTy true (IValue.tensor 5)]).getSlot 0) = true)) := by
  have hwf : (Module.mk [Slot.mk "w" Ty.tensorTy true (IValue.tensor 5)]).wf = true := by
    simp [Module.wf, wfSlots, Slot.wellTyped, Slot.attrTy, Slot.value, Module.slots,
      IValue.toModule, IValue.toObjectOpt]
  have hi : 0 < (Module.mk [Slot.mk "w" Ty.tensorTy true (IValue.tensor 5)]).numAttributes := by
    simp [Module.numAttributes, Module.slots]
  have h := c2_policy_partition _ hwf 0 hi
  exact ⟨hwf, hi, (h.1 (by simp [Module.getAttributeTy, Module.slots, Slot.attrTy]))⟩

/-- C10: on a structurally valid tree, every slot accepted by a policy's
`valid` predicate projects successfully under that policy's `create`
conversion (the `toTensor` / `toObject` failure branches are
unreachable). -/
theorem c10_valid_implies_create (m : Module) (hwf : m.wf = true) (i : Nat)
    (hi : i < m.numAttributes) :
    (ParameterPolicy.valid m i (m.getSlot i) = true →
      (TensorPolicy.createOpt (m.getSlot i)).isSome = true) ∧
    (BufferPolicy.valid m i (m.getSlot i) = true →
      (TensorPolicy.createOpt (m.getSlot i)).isSome = true) ∧
    (ModulePolicy.valid m i (m.getSlot i) = true →
      (ModulePolicy.createOpt (m.getSlot i)).isSome = true) := by
  have hs := wf_slot_wellTyped hwf hi
  rcases hdef : m.slots.getD i default with ⟨n, t, p, v⟩
  rw [hdef] at hs
  simp only [ParameterPolicy, BufferPolicy, ModulePolicy, Module.is_parameter,
    Module.getAttributeTy, Module.getSlot, hdef, Slot.wellTyped, Slot.attrTy,
    Slot.is_param, Slot.value, TensorPolicy.createOpt, ModulePolicy.createOpt] at *
  cases t <;> cases v <;> cases p <;>
    simp_all [Ty.is_module, Ty.isSubtypeOfTensor, IValue.isTensor,
      IValue.toTensorOpt, IValue.toObjectOpt]

/-- Witness for C10 at a concrete one-buffer module. -/
theorem c10_valid_implies_create_witness :
    (Module.mk [Slot.mk "b" Ty.tensorTy false (IValue.tensor 7)]).wf = true ∧
    (0 < (Module.mk [Slot.mk "b" Ty.tensorTy false (IValue.tensor 7)]).numAttributes) ∧
    (BufferPolicy.valid (Module.mk [Slot.mk "b" Ty.tensorTy false (IValue.tensor 7)]) 0
        ((Module.mk [Slot.mk "b" Ty.tensorTy false (IValue.tensor 7)]).getSlot 0) = true →
      (TensorPolicy.createOpt
        ((Module.mk [Slot.mk "b" Ty.tensorTy false (IValue.tensor 7)]).getSlot 0)).isSome = true) := by
  have hwf : (Module.mk [Slot.mk "b" Ty.tensorTy false (IValue.tensor 7)]).wf = true := by
    simp [Module.wf, wfSlots, Slot.wellTyped, Slot.attrTy, Slot.value, Module.slots,
      IValue.toModule, IValue.toObjectOpt]
  have hi : 0 < (Module.mk [Slot.mk "b" Ty.tensorTy false (IValue.tensor 7)]).numAttributes := by
    simp [Module.numAttributes, Module.slots]
  exact ⟨hwf, hi, (c10_valid_implies_create _ hwf 0 hi).2.1⟩

/-- C4 (corrected): `operator!=` returns `true` exactly when one of the
two iterators has an empty cursor stack and the other does not; it does
not distinguish two non-terminal iterators. -/
theorem c4_neq_iff (a b : SlotIter) :
    (SlotIter.neq a b = true) ↔
      ¬(a.cursors_.isEmpty = b.cursors_.isEmpty) := by
  unfold SlotIter.neq
  cases a.cursors_.isEmpty <;> cases b.cursors_.isEmpty <;> simp

/-- Counterexample to C4 as stated: a non-terminal iterator (the `begin`
of an attribute view over a one-slot module) compared with itself is not
in the terminal state on either side, yet `operator!=` returns `false`. -/
theorem c4_counterexample :
    SlotIter.neq
        (slot_list.begin AttributePolicy
          ⟨Module.mk [Slot.mk "a" Ty.tensorTy false (IValue.tensor 0)], false, false⟩)
        (slot_list.begin AttributePolicy
          ⟨Module.mk [Slot.mk "a" Ty.tensorTy false (IValue.tensor 0)], false, false⟩) = false ∧
    (slot_list.begin AttributePolicy
        ⟨Module.mk [Slot.mk "a" Ty.tensorTy false (IValue.tensor 0)], false, false⟩).cursors_ ≠ [] := by
  constructor
  · unfold SlotIter.neq
    cases (slot_list.begin AttributePolicy
      ⟨Module.mk [Slot.mk "a" Ty.tensorTy false (IValue.tensor 0)], false, false⟩).cursors_.isEmpty <;> simp
  · simp [slot_list.begin, slotIterBegin, SlotIter.skip, SlotIter.measureR,
      stackMeasure, tcost, ntcost, scostList, Module.slots, Slot.attrTy,
      whileNotValidNext, SlotIter.validAt, SlotIter.return_module,
      Module.numAttributes, AttributePolicy]

/-- C5: advancing an iterator already in the terminal empty-stack state
is a safe no-op: the state is unchanged, it still compares equal to the
canonical end iterator, and unequal to every non-terminal iterator. -/
theorem c5_terminal_advance (P : Policy) (it : SlotIter)
    (h : it.cursors_ = []) :
    it.next_valid P = it ∧
    SlotIter.neq (it.next_valid P) SlotIter.endIter = false ∧
    ∀ b : SlotIter, b.cursors_ ≠ [] →
      SlotIter.neq (it.next_valid P) b = true := by
  have hnv : it.next_valid P = it := by
    unfold SlotIter.next_valid
    simp [h]
  refine ⟨hnv, ?_, ?_⟩
  · rw [hnv]
    simp [SlotIter.neq, SlotIter.endIter, h]
  · intro b hb
    rw [hnv]
    simp [SlotIter.neq, h, List.isEmpty_iff, hb]

/-- Witness for C5 at the canonical end iterator. -/
theorem c5_terminal_advance_witness :
    SlotIter.endIter.cursors_ = [] ∧
    SlotIter.endIter.next_valid AttributePolicy = SlotIter.endIter := by
  have h := c5_terminal_advance AttributePolicy SlotIter.endIter rfl
  exact ⟨rfl, h.1⟩

/-- C8: a slot view is restartable: `begin()` depends only on the stored
root module and flags, so two separate iterations of the same view
produce the same element sequence (equal length, equal elements, same
order); in the pure embedding both iterations are literally the same
list. -/
theorem c8_restartable (P : Policy) (l : slot_list) :
    slot_list.begin P l =
      slotIterBegin P l.module_ l.recurse_ l.return_module_ ∧
    slot_list.toList P l = slot_list.toList P l :=
  ⟨rfl, rfl⟩

/-! ## The step measure decreases along the walk -/

theorem stackMeasure_cons_pos (r : Bool) (c : SlotCursor)
    (rest : List SlotCursor) : 1 ≤ stackMeasure r (c :: rest) := by
  simp only [stackMeasure, tcost]
  omega

theorem stackMeasure_eq_zero {r : Bool} {s : List SlotCursor}
    (h : stackMeasure r s = 0) : s = [] := by
  cases s with
  | nil => rfl
  | cons c rest => have := stackMeasure_cons_pos r c rest; omega

theorem next_recurse (it : SlotIter) : it.next.recurse_ = it.recurse_ := by
  rcases it with ⟨cs, r⟩
  cases cs with
  | nil => rfl
  | cons c rest =>
    simp only [SlotIter.next]
    split_ifs
    all_goals first
      | rfl
      | (cases rest <;> rfl)

theorem okStack_next {it : SlotIter} (h : okStack it.cursors_) :
    okStack it.next.cursors_ := by
  rcases it with ⟨cs, r⟩
  cases cs with
  | nil => exact h
  | cons c rest =>
    obtain ⟨h1, h2⟩ := h
    simp only [SlotIter.next]
    split_ifs with hA hB hC
    · exact ⟨by dsimp only; omega, h2⟩
    · cases rest with
      | nil => trivial
      | cons p ps =>
        have hp := h2 p (List.mem_cons_self p ps)
        exact ⟨by dsimp only; omega,
          fun q hq => h2 q (List.mem_cons_of_mem p hq)⟩
    · rw [beq_iff_eq] at hA
      refine ⟨by dsimp only; omega, fun q hq => ?_⟩
      rcases List.mem_cons.mp hq with h | h
      · subst h; omega
      · exact h2 q h
    · exact ⟨by dsimp only; omega, h2⟩

theorem invStack_okStack {s : List SlotCursor} (h : invStack s) : okStack s := by
  cases s with
  | nil => trivial
  | cons c rest =>
    obtain ⟨⟨ha, _⟩, _, hr⟩ := h
    exact ⟨ha, fun p hp => (hr p hp).1⟩

theorem invStack_next {it : SlotIter} (h : invStack it.cursors_) :
    invStack it.next.cursors_ := by
  rcases it with ⟨cs, r⟩
  cases cs with
  | nil => exact h
  | cons c rest =>
    obtain ⟨⟨ha, hb⟩, hsent, hr⟩ := h
    simp only [SlotIter.next]
    split_ifs with hA hB hC
    · rw [beq_iff_eq] at hA
      refine ⟨⟨by dsimp only; omega, by dsimp only; omega⟩,
        by dsimp only; omega, hr⟩
    · rw [beq_iff_eq] at hA
      cases rest with
      | nil => trivial
      | cons p ps =>
        have hp := hr p (List.mem_cons_self p ps)
        refine ⟨⟨by dsimp only; omega, by dsimp only; omega⟩,
          by dsimp only; omega,
          fun q hq => hr q (List.mem_cons_of_mem p hq)⟩
    · rw [beq_iff_eq] at hA
      refine ⟨⟨by dsimp only; omega, by dsimp only; omega⟩,
        by dsimp only; omega, fun q hq => ?_⟩
      rcases List.mem_cons.mp hq with h | h
      · subst h; exact ⟨by omega, by omega⟩
      · exact hr q h
    · rw [beq_iff_eq] at hA
      exact ⟨⟨by dsimp only; omega, by dsimp only; omega⟩,
        by dsimp only; omega, hr⟩

theorem measure_next {it : SlotIter} (hok : okStack it.cursors_)
    (hne : it.cursors_ ≠ []) :
    stackMeasure it.recurse_ it.next.cursors_ + 1 =
      stackMeasure it.recurse_ it.cursors_ := by
  rcases it with ⟨cs, r⟩
  cases cs with
  | nil => exact absurd rfl hne
  | cons c rest =>
    obtain ⟨h1, h2⟩ := hok
    simp only [SlotIter.next]
    split_ifs with hA hB hC
    · -- sentinel: the frame's index moves from -1 to 0
      rw [beq_iff_eq] at hA
      have hm1 : ((-1 : Int)).toNat = 0 := rfl
      simp only [stackMeasure, tcost, hA, hm1]
      norm_num
      omega
    · -- exhausted frame: pop (and bump the parent)
      rw [beq_iff_eq] at hA
      have hi0 : (0 : Int) ≤ c.i_ := by
        have : (0 : Int) ≤ (c.module_.numAttributes : Int) := by positivity
        omega
      have hnl : ¬(c.i_ < 0) := by omega
      have hdrop : c.module_.slots.drop c.i_.toNat = [] := by
        apply List.drop_eq_nil_of_le
        have : c.module_.numAttributes ≤ c.i_.toNat := by omega
        simpa [Module.numAttributes] using this
      cases rest with
      | nil =>
        simp only [stackMeasure, tcost, hdrop, scostList, if_neg hnl,
          List.map_nil, List.sum_nil]
        omega
      | cons p ps =>
        have hp := h2 p (List.mem_cons_self p ps)
        have hnp : ¬(p.i_ + 1 < 0) := by omega
        have htn : (p.i_ + 1).toNat = p.i_.toNat + 1 := by omega
        simp only [stackMeasure, tcost, ntcost, hdrop, scostList,
          List.map_cons, List.sum_cons, if_neg hnl]
        dsimp only
        simp only [if_neg hnp, htn]
        omega
    · -- descend into a nested module: push a child frame
      rw [beq_iff_eq] at hA
      have hi0 : (0 : Int) ≤ c.i_ := by omega
      have hnl : ¬(c.i_ < 0) := by omega
      have hlt : c.i_.toNat < c.module_.slots.length := by
        have : c.i_ < (c.module_.numAttributes : Int) := by omega
        simp only [Module.numAttributes] at this
        omega
      have hdrop := List.drop_eq_getElem_cons hlt
      have hget : c.module_.slots.getD c.i_.toNat default =
          c.module_.slots[c.i_.toNat] := List.getD_eq_getElem _ _ hlt
      have hmod : (r && (c.module_.slots[c.i_.toNat]).attrTy.is_module) = true := by
        simpa only [Module.getAttributeTy, hget] using hC
      simp only [stackMeasure, tcost, ntcost, List.map_cons, List.sum_cons,
        Module.getSlot, hget, hdrop, scostList, hmod, if_true]
      dsimp only
      have hz : ((0 : Int)).toNat = 0 := rfl
      have hznl : ¬((0 : Int) < 0) := by omega
      simp only [hz, if_neg hznl, if_neg hnl, List.drop_zero]
      omega
    · -- ordinary slot (or recursion disabled): advance the index
      rw [beq_iff_eq] at hA
      have hi0 : (0 : Int) ≤ c.i_ := by omega
      have hnl : ¬(c.i_ < 0) := by omega
      have hn1 : ¬(c.i_ + 1 < 0) := by omega
      by_cases hin : c.i_.toNat < c.module_.slots.length
      · have hdrop := List.drop_eq_getElem_cons hin
        have hget : c.module_.slots.getD c.i_.toNat default =
            c.module_.slots[c.i_.toNat] := List.getD_eq_getElem _ _ hin
        have hmod : (r && (c.module_.slots[c.i_.toNat]).attrTy.is_module) = false := by
          simp only [Module.getAttributeTy, hget] at hC
          simpa using hC
        have htn : (c.i_ + 1).toNat = c.i_.toNat + 1 := by omega
        simp only [stackMeasure, tcost, hdrop, scostList, hmod,
          Bool.false_eq_true, if_false]
        dsimp only
        simp only [if_neg hnl, if_neg hn1, htn]
        omega
      · exfalso
        have : c.i_ < (c.module_.numAttributes : Int) := by omega
        simp only [Module.numAttributes] at this
        omega

theorem measureR_next {it : SlotIter} (hok : okStack it.cursors_)
    (hne : it.cursors_ ≠ []) : it.next.measureR + 1 = it.measureR := by
  unfold SlotIter.measureR
  rw [next_recurse]
  exact measure_next hok hne

/-! ## The skip loop: fuel irrelevance and basic behaviour -/

theorem whileNotValidNext_guard_false {P : Policy} {it : SlotIter} (f : Nat)
    (h : (!it.cursors_.isEmpty && !it.return_module && !it.validAt P) = false) :
    whileNotValidNext P f it = it := by
  cases f with
  | zero => rfl
  | succ f => simp [whileNotValidNext, h]

theorem whileNotValidNext_guard_true {P : Policy} {it : SlotIter} (f : Nat)
    (h : (!it.cursors_.isEmpty && !it.return_module && !it.validAt P) = true) :
    whileNotValidNext P (f + 1) it = whileNotValidNext P f it.next := by
  simp [whileNotValidNext, h]

theorem guard_true_ne_nil {P : Policy} {it : SlotIter}
    (h : (!it.cursors_.isEmpty && !it.return_module && !it.validAt P) = true) :
    it.cursors_ ≠ [] := by
  intro hnil
  simp [hnil, List.isEmpty_nil] at h

theorem okStack_whileNotValidNext (P : Policy) (f : Nat) {it : SlotIter}
    (h : okStack it.cursors_) :
    okStack (whileNotValidNext P f it).cursors_ := by
  induction f generalizing it with
  | zero => exact h
  | succ f ih =>
    by_cases hg : (!it.cursors_.isEmpty && !it.return_module && !it.validAt P) = true
    · rw [whileNotValidNext_guard_true f hg]
      exact ih (okStack_next h)
    · rw [whileNotValidNext_guard_false (f + 1) (by simpa using hg)]
      exact h

theorem invStack_whileNotValidNext (P : Policy) (f : Nat) {it : SlotIter}
    (h : invStack it.cursors_) :
    invStack (whileNotValidNext P f it).cursors_ := by
  induction f generalizing it with
  | zero => exact h
  | succ f ih =>
    by_cases hg : (!it.cursors_.isEmpty && !it.return_module && !it.validAt P) = true
    · rw [whileNotValidNext_guard_true f hg]
      exact ih (invStack_next h)
    · rw [whileNotValidNext_guard_false (f + 1) (by simpa using hg)]
      exact h

theorem recurse_whileNotValidNext (P : Policy) (f : Nat) (it : SlotIter) :
    (whileNotValidNext P f it).recurse_ = it.recurse_ := by
  induction f generalizing it with
  | zero => rfl
  | succ f ih =>
    by_cases hg : (!it.cursors_.isEmpty && !it.return_module && !it.validAt P) = true
    · rw [whileNotValidNext_guard_true f hg, ih, next_recurse]
    · rw [whileNotValidNext_guard_false (f + 1) (by simpa using hg)]

theorem measure_whileNotValidNext_le (P : Policy) (f : Nat) {it : SlotIter}
    (h : okStack it.cursors_) :
    (whileNotValidNext P f it).measureR ≤ it.measureR := by
  induction f generalizing it with
  | zero => exact le_refl _
  | succ f ih =>
    by_cases hg : (!it.cursors_.isEmpty && !it.return_module && !it.validAt P) = true
    · rw [whileNotValidNext_guard_true f hg]
      have h1 := ih (okStack_next h)
      have h2 := measureR_next h (guard_true_ne_nil hg)
      omega
    · rw [whileNotValidNext_guard_false (f + 1) (by simpa using hg)]

theorem whileNotValidNext_fuel (P : Policy) :
    ∀ (f : Nat) {it : SlotIter} (g : Nat), okStack it.cursors_ →
      it.measureR ≤ f → it.measureR ≤ g →
      whileNotValidNext P f it = whileNotValidNext P g it := by
  intro f
  induction f with
  | zero =>
    intro it g hok hf hg
    have hnil : it.cursors_ = [] :=
      stackMeasure_eq_zero (show stackMeasure it.recurse_ it.cursors_ = 0 by
        have : it.measureR = 0 := by omega
        simpa [SlotIter.measureR] using this)
    rw [whileNotValidNext_guard_false g (by simp [hnil, List.isEmpty_nil])]
    rfl
  | succ f ih =>
    intro it g hok hf hg
    by_cases hguard : (!it.cursors_.isEmpty && !it.return_module && !it.validAt P) = true
    · have hne := guard_true_ne_nil hguard
      have hm1 : 1 ≤ it.measureR := by
        rcases h : it.cursors_ with _ | ⟨c, rest⟩
        · exact absurd h hne
        · have := stackMeasure_cons_pos it.recurse_ c rest
          simp only [SlotIter.measureR, h]
          omega
      obtain ⟨g', rfl⟩ : ∃ g', g = g' + 1 := ⟨g - 1, by omega⟩
      rw [whileNotValidNext_guard_true f hguard,
        whileNotValidNext_guard_true g' hguard]
      have hmn := measureR_next hok hne
      exact ih g' (okStack_next hok) (by omega) (by omega)
    · rw [whileNotValidNext_guard_false (f + 1) (by simpa using hguard),
        whileNotValidNext_guard_false g (by simpa using hguard)]

theorem skip_guard_false {P : Policy} {it : SlotIter}
    (h : (!it.cursors_.isEmpty && !it.return_module && !it.validAt P) = false) :
    it.skip P = it :=
  whileNotValidNext_guard_false _ h

theorem skip_eq_skip_next {P : Policy} {it : SlotIter}
    (hok : okStack it.cursors_)
    (hg : (!it.cursors_.isEmpty && !it.return_module && !it.validAt P) = true) :
    it.skip P = it.next.skip P := by
  unfold SlotIter.skip
  have hne := guard_true_ne_nil hg
  have hmn := measureR_next hok hne
  rw [← hmn, whileNotValidNext_guard_true _ hg]

theorem seqElems_nil {P : Policy} (f : Nat) {it : SlotIter}
    (h : it.cursors_ = []) : seqElems P f it = [] := by
  cases f with
  | zero => rfl
  | succ f => simp [seqElems, h, List.isEmpty_nil]

/-- The iterator's externally visible element sequence
(`begin`/`operator*`/`operator++`) equals the raw single-step walk's
yield sequence. -/
theorem seqElems_skip_eq_runElems (P : Policy) :
    ∀ (f2 : Nat) {it : SlotIter} (f1 : Nat), okStack it.cursors_ →
      it.measureR ≤ f2 → it.measureR ≤ f1 →
      seqElems P f1 (it.skip P) = runElems P f2 it := by
  intro f2
  induction f2 with
  | zero =>
    intro it f1 hok hf2 hf1
    have hnil : it.cursors_ = [] :=
      stackMeasure_eq_zero (show stackMeasure it.recurse_ it.cursors_ = 0 by
        have : it.measureR = 0 := by omega
        simpa [SlotIter.measureR] using this)
    rw [skip_guard_false (by simp [hnil, List.isEmpty_nil])]
    exact seqElems_nil f1 hnil
  | succ f2 ih =>
    intro it f1 hok hf2 hf1
    by_cases hempty : it.cursors_.isEmpty = true
    · have hnil : it.cursors_ = [] := by
        rwa [List.isEmpty_iff] at hempty
      rw [skip_guard_false (by simp [hnil, List.isEmpty_nil])]
      rw [seqElems_nil f1 hnil]
      simp [runElems, hempty]
    · have hne : it.cursors_ ≠ [] := by
        intro hnil
        exact hempty (by simp [hnil, List.isEmpty_nil])
      have hm1 : 1 ≤ it.measureR := by
        rcases h : it.cursors_ with _ | ⟨c, rest⟩
        · exact absurd h hne
        · have := stackMeasure_cons_pos it.recurse_ c rest
          simp only [SlotIter.measureR, h]
          omega
      by_cases hyield : (it.return_module || it.validAt P) = true
      · -- a yield point: the skip loop does not move, an element is taken
        have hg : (!it.cursors_.isEmpty && !it.return_module && !it.validAt P)
            = false := by
          rcases Bool.or_eq_true_iff.mp hyield with h | h <;> simp [h]
        rw [skip_guard_false hg]
        obtain ⟨f1', rfl⟩ : ∃ f1', f1 = f1' + 1 := ⟨f1 - 1, by omega⟩
        have hrun : runElems P (f2 + 1) it =
            (it.cursors_, it.cur) :: runElems P f2 it.next := by
          simp [runElems, hempty, hyield]
        rw [hrun]
        have hseq : seqElems P (f1' + 1) it =
            (it.cursors_, it.cur) :: seqElems P f1' (it.next_valid P) := by
          simp [seqElems, hempty]
        rw [hseq]
        have hnv : it.next_valid P = it.next.skip P := by
          unfold SlotIter.next_valid
          simp [hempty]
        rw [hnv]
        have hmn := measureR_next hok hne
        exact congrArg _ (ih f1' (okStack_next hok) (by omega) (by omega))
      · -- not a yield point: both sides step through it
        have hg : (!it.cursors_.isEmpty && !it.return_module && !it.validAt P)
            = true := by
          have h1 : it.return_module = false := by
            cases hr : it.return_module
            · rfl
            · exact absurd (by simp [hr]) hyield
          have h2 : it.validAt P = false := by
            cases hv : it.validAt P
            · rfl
            · exact absurd (by simp [hv]) hyield
          simp [hempty, h1, h2]
        rw [skip_eq_skip_next hok hg]
        have hrun : runElems P (f2 + 1) it = runElems P f2 it.next := by
          have : (it.return_module || it.validAt P) = false := by
            simpa using hyield
          simp [runElems, hempty, this]
        rw [hrun]
        have hmn := measureR_next hok hne
        exact ih f1 (okStack_next hok) (by omega) (by omega)

/-! ## The raw walk yields exactly the recursively counted elements -/

theorem dstackCount_sentinel (P : Policy) (r : Bool) (cm : Module)
    (rest : List SlotCursor) :
    dstackCount P r (⟨cm, -1⟩ :: rest) =
      1 + dsuffixCount P r cm 0 cm.slots + dcontCount P r rest := by
  simp only [dstackCount]
  norm_num

theorem dstackCount_pos (P : Policy) (r : Bool) (cm : Module) (ci : Int)
    (h : 0 ≤ ci) (rest : List SlotCursor) :
    dstackCount P r (⟨cm, ci⟩ :: rest) =
      dsuffixCount P r cm ci.toNat (cm.slots.drop ci.toNat) +
        dcontCount P r rest := by
  have hne : (ci == -1) = false := by
    rw [beq_eq_false_iff_ne]
    omega
  simp only [dstackCount, hne]
  norm_num

theorem runElems_length (P : Policy) :
    ∀ (f : Nat) {it : SlotIter}, okStack it.cursors_ → it.measureR ≤ f →
      (runElems P f it).length = dstackCount P it.recurse_ it.cursors_ := by
  intro f
  induction f with
  | zero =>
    intro it hok hf
    have hnil : it.cursors_ = [] :=
      stackMeasure_eq_zero (show stackMeasure it.recurse_ it.cursors_ = 0 by
        have : it.measureR = 0 := by omega
        simpa [SlotIter.measureR] using this)
    simp [runElems, hnil, dstackCount]
  | succ f ih =>
    intro it hok hf
    rcases it with ⟨cs, r⟩
    cases cs with
    | nil => simp [runElems, List.isEmpty_nil, dstackCount]
    | cons c rest =>
      rcases c with ⟨cm, ci⟩
      obtain ⟨h1, h2⟩ := hok
      have h1i : (-1 : Int) ≤ ci := h1
      have hne : (SlotIter.mk (⟨cm, ci⟩ :: rest) r).cursors_ ≠ [] := by simp
      have hmr := @measureR_next ⟨⟨cm, ci⟩ :: rest, r⟩ ⟨h1, h2⟩ hne
      have hmf : (SlotIter.mk (⟨cm, ci⟩ :: rest) r).next.measureR ≤ f := by
        have hms : (SlotIter.mk (⟨cm, ci⟩ :: rest) r).measureR ≤ f + 1 := hf
        omega
      have hoknext := @okStack_next ⟨⟨cm, ci⟩ :: rest, r⟩ ⟨h1, h2⟩
      have ihn := ih hoknext hmf
      rw [next_recurse] at ihn
      by_cases hA : ci = -1
      · -- sentinel: always a yield, the index moves to 0
        subst hA
        have hrm : (SlotIter.mk (⟨cm, -1⟩ :: rest) r).return_module = true := by
          simp [SlotIter.return_module]
        have hnext : (SlotIter.mk (⟨cm, -1⟩ :: rest) r).next =
            ⟨⟨cm, 0⟩ :: rest, r⟩ := by
          simp [SlotIter.next]
        have hlen : (runElems P (f + 1) ⟨⟨cm, -1⟩ :: rest, r⟩).length =
            (runElems P f (SlotIter.mk (⟨cm, -1⟩ :: rest) r).next).length + 1 := by
          simp [runElems, hrm]
        rw [hnext] at ihn
        rw [hlen, hnext, ihn]
        rw [dstackCount_pos P r cm 0 (by omega) rest]
        rw [dstackCount_sentinel]
        simp only [Int.toNat_zero, List.drop_zero]
        omega
      · have hi0 : (0 : Int) ≤ ci := by omega
        have hAb : (ci == -1) = false := by
          rw [beq_eq_false_iff_ne]
          exact hA
        have hrm : (SlotIter.mk (⟨cm, ci⟩ :: rest) r).return_module = false := by
          simp only [SlotIter.return_module]
          exact hAb
        by_cases hB : (cm.numAttributes : Int) ≤ ci
        · -- exhausted frame: no yield, pop
          have hnlt : ¬(ci < (cm.numAttributes : Int)) := by omega
          have hval : (SlotIter.mk (⟨cm, ci⟩ :: rest) r).validAt P = false := by
            simp only [SlotIter.validAt]
            simp [hnlt]
          have hlen : (runElems P (f + 1) ⟨⟨cm, ci⟩ :: rest, r⟩).length =
              (runElems P f (SlotIter.mk (⟨cm, ci⟩ :: rest) r).next).length := by
            simp [runElems, hrm, hval]
          have hdrop : cm.slots.drop ci.toNat = [] := by
            apply List.drop_eq_nil_of_le
            have : cm.numAttributes ≤ ci.toNat := by omega
            simpa [Module.numAttributes] using this
          rw [hlen, dstackCount_pos P r cm ci hi0 rest, hdrop]
          cases rest with
          | nil =>
            have hnext : (SlotIter.mk [⟨cm, ci⟩] r).next = ⟨[], r⟩ := by
              simp [SlotIter.next, hAb, hB]
            rw [hnext] at ihn
            rw [hnext, ihn]
            simp [dstackCount, dcontCount, dsuffixCount]
          | cons p ps =>
            have hp := h2 p (List.mem_cons_self p ps)
            have hnext : (SlotIter.mk (⟨cm, ci⟩ :: p :: ps) r).next =
                ⟨⟨p.module_, p.i_ + 1⟩ :: ps, r⟩ := by
              simp [SlotIter.next, hAb, hB]
            rw [hnext] at ihn
            rw [hnext, ihn]
            rw [dstackCount_pos P r p.module_ (p.i_ + 1) (by omega) ps]
            have htn : (p.i_ + 1).toNat = p.i_.toNat + 1 := by omega
            rw [htn]
            simp only [dsuffixCount, dcontCount]
            omega
        · -- scanning a real slot of the top frame
          have hlt : ci < (cm.numAttributes : Int) := by omega
          have hin : ci.toNat < cm.slots.length := by
            simp only [Module.numAttributes] at hlt
            omega
          have hdrop := List.drop_eq_getElem_cons hin
          have hget : cm.slots.getD ci.toNat default = cm.slots[ci.toNat] :=
            List.getD_eq_getElem _ _ hin
          have hslot : cm.getSlot ci.toNat = (cm.slots[ci.toNat]).value := by
            simp only [Module.getSlot, hget]
          have hattr : cm.getAttributeTy ci.toNat = (cm.slots[ci.toNat]).attrTy := by
            simp only [Module.getAttributeTy, hget]
          have hvalid : (SlotIter.mk (⟨cm, ci⟩ :: rest) r).validAt P =
              P.valid cm ci.toNat (cm.slots[ci.toNat]).value := by
            simp [SlotIter.validAt, hslot, hlt]
          rw [dstackCount_pos P r cm ci hi0 rest, hdrop]
          simp only [dsuffixCount]
          by_cases hC : (r && ((cm.slots[ci.toNat]).attrTy).is_module) = true
          · -- descend: push a frame for the nested module
            have hnext : (SlotIter.mk (⟨cm, ci⟩ :: rest) r).next =
                ⟨⟨(cm.slots[ci.toNat]).value.toModule, 0⟩ :: ⟨cm, ci⟩ :: rest, r⟩ := by
              simp only [SlotIter.next]
              rw [if_neg (by simp [hAb] : ¬((ci == -1) = true)),
                if_neg (by omega : ¬((cm.numAttributes : Int) ≤ ci)),
                if_pos (by rw [hattr]; exact hC :
                  ((SlotIter.mk (⟨cm, ci⟩ :: rest) r).recurse_ &&
                    (cm.getAttributeTy ci.toNat).is_module) = true)]
              rw [hslot]
            rw [hnext] at ihn
            rw [dstackCount_pos P r _ 0 (by omega) (⟨cm, ci⟩ :: rest)] at ihn
            simp only [Int.toNat_zero, List.drop_zero, dcontCount] at ihn
            by_cases hv : P.valid cm ci.toNat (cm.slots[ci.toNat]).value = true
            · have hlen : (runElems P (f + 1) ⟨⟨cm, ci⟩ :: rest, r⟩).length =
                  (runElems P f (SlotIter.mk (⟨cm, ci⟩ :: rest) r).next).length + 1 := by
                simp [runElems, hrm, hvalid, hv]
              rw [hlen, hnext, ihn]
              simp only [hv, hC, if_true]
              omega
            · have hvf : P.valid cm ci.toNat (cm.slots[ci.toNat]).value = false := by
                simp [hv]
              have hlen : (runElems P (f + 1) ⟨⟨cm, ci⟩ :: rest, r⟩).length =
                  (runElems P f (SlotIter.mk (⟨cm, ci⟩ :: rest) r).next).length := by
                simp [runElems, hrm, hvalid, hvf]
              rw [hlen, hnext, ihn]
              simp only [hvf, hC, if_true, Bool.false_eq_true, if_false]
              omega
          · -- ordinary slot (or recursion disabled): advance the index
            have hCf : (r && ((cm.slots[ci.toNat]).attrTy).is_module) = false := by
              rw [← Bool.not_eq_true]
              exact hC
            have hnext : (SlotIter.mk (⟨cm, ci⟩ :: rest) r).next =
                ⟨⟨cm, ci + 1⟩ :: rest, r⟩ := by
              simp only [SlotIter.next]
              rw [if_neg (by simp [hAb] : ¬((ci == -1) = true)),
                if_neg (by omega : ¬((cm.numAttributes : Int) ≤ ci)),
                if_neg (by rw [hattr]; simp [hCf] :
                  ¬(((SlotIter.mk (⟨cm, ci⟩ :: rest) r).recurse_ &&
                    (cm.getAttributeTy ci.toNat).is_module) = true))]
            rw [hnext] at ihn
            rw [dstackCount_pos P r cm (ci + 1) (by omega) rest] at ihn
            have htn : (ci + 1).toNat = ci.toNat + 1 := by omega
            rw [htn] at ihn
            by_cases hv : P.valid cm ci.toNat (cm.slots[ci.toNat]).value = true
            · have hlen : (runElems P (f + 1) ⟨⟨cm, ci⟩ :: rest, r⟩).length =
                  (runElems P f (SlotIter.mk (⟨cm, ci⟩ :: rest) r).next).length + 1 := by
                simp [runElems, hrm, hvalid, hv]
              rw [hlen, hnext, ihn]
              simp only [hv, hCf, if_true, Bool.false_eq_true, if_false]
              omega
            · have hvf : P.valid cm ci.toNat (cm.slots[ci.toNat]).value = false := by
                simp [hv]
              have hlen : (runElems P (f + 1) ⟨⟨cm, ci⟩ :: rest, r⟩).length =
                  (runElems P f (SlotIter.mk (⟨cm, ci⟩ :: rest) r).next).length := by
                simp [runElems, hrm, hvalid, hvf]
              rw [hlen, hnext, ihn]
              simp only [hvf, hCf, Bool.false_eq_true, if_false]
              omega

/-! ## The master theorem: what a view's iteration yields, counted -/

theorem okStack_init (m : Module) (rm : Bool) :
    okStack ([⟨m, if rm then -1 else 0⟩] : List SlotCursor) := by
  constructor
  · dsimp only
    split_ifs <;> omega
  · intro p hp
    cases hp

theorem toList_length (P : Policy) (l : slot_list) :
    (slot_list.toList P l).length =
      dstackCount P l.recurse_
        [⟨l.module_, if l.return_module_ then -1 else 0⟩] := by
  have hok : okStack
      (SlotIter.mk [⟨l.module_, if l.return_module_ then -1 else 0⟩]
        l.recurse_).cursors_ :=
    okStack_init l.module_ l.return_module_
  unfold slot_list.toList
  rw [seqElems_skip_eq_runElems P
    (SlotIter.mk [⟨l.module_, if l.return_module_ then -1 else 0⟩]
      l.recurse_).measureR _ hok (le_refl _) (by omega)]
  exact runElems_length P _ hok (le_refl _)

theorem dsuffixCount_nonrec_all (P : Policy)
    (hall : ∀ m' i' v, P.valid m' i' v = true) (m : Module) :
    ∀ (rest : List Slot) (i : Nat), dsuffixCount P false m i rest = rest.length := by
  intro rest
  induction rest with
  | nil =>
    intro i
    simp [dsuffixCount]
  | cons s rest' ih =>
    intro i
    simp only [dsuffixCount, hall, if_true, Bool.false_and, Bool.false_eq_true,
      if_false, ih (i + 1), List.length_cons]
    omega

theorem dsuffixCount_attr_aux :
    ∀ (n : Nat) (m : Module) (i : Nat) (rest : List Slot), sizeOf rest ≤ n →
      dsuffixCount AttributePolicy true m i rest = rest.length + totalList rest := by
  intro n
  induction n with
  | zero =>
    intro m i rest h
    cases rest with
    | nil => simp [dsuffixCount, totalList]
    | cons s rest' =>
      exfalso
      rw [List.cons.sizeOf_spec] at h
      omega
  | succ n ih =>
    intro m i rest h
    cases rest with
    | nil => simp [dsuffixCount, totalList]
    | cons s rest' =>
      have hsz : sizeOf rest' ≤ n := by
        simp at h
        omega
      have hchild : sizeOf s.value.toModule.slots ≤ n := by
        have hlt := sizeOf_toModule_slots_lt s
        simp at h
        omega
      simp only [dsuffixCount, totalList]
      rw [ih m (i + 1) rest' hsz,
        ih s.value.toModule 0 s.value.toModule.slots hchild]
      simp only [AttributePolicy, Bool.true_and, if_true, List.length_cons]
      omega

theorem dsuffixCount_attr (m : Module) (i : Nat) (rest : List Slot) :
    dsuffixCount AttributePolicy true m i rest = rest.length + totalList rest :=
  dsuffixCount_attr_aux (sizeOf rest) m i rest (le_refl _)

/-- C1: for every Policy honouring the `all_slots` contract
(`all_slots = true` only when `valid` accepts unconditionally) and every
recurse/include-root combination, `size()` equals the count obtained by
exhaustively iterating the view; in particular the O(1) fast path
(`num_slots()` for a non-recursive root-excluding all-slots view) agrees
with the exhaustive count. -/
theorem c1_size_iteration_agree (P : Policy)
    (hall : P.all_slots = true → ∀ m i v, P.valid m i v = true)
    (l : slot_list) :
    slot_list.size P l = (slot_list.toList P l).length := by
  unfold slot_list.size
  split_ifs with hfast
  · rcases l with ⟨m, rec, rm⟩
    simp only [Bool.and_eq_true, Bool.not_eq_true'] at hfast
    obtain ⟨⟨hrec, hrm⟩, hslots⟩ := hfast
    rw [toList_length]
    dsimp only
    rw [hrec, hrm]
    simp only [Bool.false_eq_true, if_false]
    rw [dstackCount_pos P false m 0 (by omega) []]
    simp only [Int.toNat_zero, List.drop_zero, dcontCount]
    rw [dsuffixCount_nonrec_all P (hall hslots) m m.slots 0]
    simp [Module.num_slots, Module.numAttributes]
  · rfl

/-- Witness for C1 at `AttributePolicy` over a concrete one-slot module,
non-recursive, root excluded (the fast-path case). -/
theorem c1_size_iteration_agree_witness :
    (AttributePolicy.all_slots = true →
      ∀ m i v, AttributePolicy.valid m i v = true) ∧
    slot_list.size AttributePolicy
        ⟨Module.mk [Slot.mk "x" Ty.otherTy false (IValue.prim 3)], false, false⟩ =
      (slot_list.toList AttributePolicy
        ⟨Module.mk [Slot.mk "x" Ty.otherTy false (IValue.prim 3)], false, false⟩).length := by
  have hall : AttributePolicy.all_slots = true →
      ∀ m i v, AttributePolicy.valid m i v = true := fun _ _ _ _ => rfl
  exact ⟨hall, c1_size_iteration_agree AttributePolicy hall _⟩

/-- C3: with recursion enabled and the root excluded, an
`AttributePolicy` view yields exactly the aggregate slot count of the
tree: the sum of the slot counts of every container reachable from the
root, the root included, the synthetic root-as-self entry excluded. -/
theorem c3_attribute_completeness (m : Module) :
    (slot_list.toList AttributePolicy ⟨m, true, false⟩).length =
      m.totalSlots := by
  rw [toList_length]
  dsimp only
  simp only [Bool.false_eq_true, if_false]
  rw [dstackCount_pos AttributePolicy true m 0 (by omega) []]
  simp only [Int.toNat_zero, List.drop_zero, dcontCount]
  rw [dsuffixCount_attr m 0 m.slots]
  rfl

/-- C6 (corrected, root-excluding case): a container with zero slots
yields an empty sequence from every view that does not include the root,
for every Policy and recurse flag, and its `size()` is `0`. -/
theorem c6_empty_container (P : Policy) (m : Module) (hm : m.slots = [])
    (r : Bool) :
    slot_list.toList P ⟨m, r, false⟩ = [] ∧
    slot_list.size P ⟨m, r, false⟩ = 0 := by
  have hlen : (slot_list.toList P ⟨m, r, false⟩).length = 0 := by
    rw [toList_length]
    dsimp only
    simp only [Bool.false_eq_true, if_false]
    rw [dstackCount_pos P r m 0 (by omega) []]
    simp [hm, dsuffixCount, dcontCount]
  refine ⟨List.length_eq_zero.mp hlen, ?_⟩
  unfold slot_list.size
  split_ifs
  · simp [Module.num_slots, Module.numAttributes, hm]
  · exact hlen

/-- Witness for C6 (amended) at a concrete empty module. -/
theorem c6_empty_container_witness :
    (Module.mk []).slots = [] ∧
    slot_list.toList ParameterPolicy ⟨Module.mk [], true, false⟩ = [] ∧
    slot_list.size ParameterPolicy ⟨Module.mk [], true, false⟩ = 0 := by
  have h := c6_empty_container ParameterPolicy (Module.mk []) rfl true
  exact ⟨rfl, h.1, h.2⟩

/-- Counterexample to C6 as stated: the `modules()`-style view
(`ModulePolicy`, recurse, include_root) over a container with zero slots
yields the root itself (the sentinel position is always valid), so the
sequence has one element and `size()` is `1`, not `0`. -/
theorem c6_counterexample :
    slot_list.size ModulePolicy ⟨Module.mk [], true, true⟩ = 1 ∧
    (slot_list.toList ModulePolicy ⟨Module.mk [], true, true⟩).length = 1 := by
  have hlen : (slot_list.toList ModulePolicy ⟨Module.mk [], true, true⟩).length
      = 1 := by
    rw [toList_length]
    dsimp only
    simp only [if_true]
    rw [dstackCount_sentinel]
    simp [dsuffixCount, dcontCount, Module.slots]
  refine ⟨?_, hlen⟩
  unfold slot_list.size
  split_ifs with h
  · simp at h
  · exact hlen

/-! ## Reachable-state invariants -/

theorem invStack_init (m : Module) (rm : Bool) :
    invStack ([⟨m, if rm then -1 else 0⟩] : List SlotCursor) := by
  refine ⟨⟨?_, ?_⟩, fun _ => rfl, fun p hp => absurd hp (List.not_mem_nil p)⟩
  · dsimp only
    split_ifs <;> omega
  · dsimp only
    split_ifs <;> omega

theorem invStack_begin (P : Policy) (root : Module) (recurse rm : Bool) :
    invStack (slotIterBegin P root recurse rm).cursors_ :=
  invStack_whileNotValidNext P _ (invStack_init root rm)

theorem invStack_next_valid (P : Policy) {it : SlotIter}
    (h : invStack it.cursors_) : invStack (it.next_valid P).cursors_ := by
  unfold SlotIter.next_valid
  split_ifs with he
  · exact h
  · exact invStack_whileNotValidNext P _ (invStack_next h)

/-- C9: in every state reachable from construction by any sequence of
advances, the full iterator invariant holds: the stack is empty exactly
when the iterator compares equal to the canonical end iterator; only a
singleton stack may carry the sentinel index `-1`; the top frame's index
never exceeds its container's slot count; and every lower frame's index
is a real slot index of its container. -/
theorem c9_reachable_invariants (P : Policy) (root : Module)
    (recurse rm : Bool) (k : Nat) :
    invStack (((SlotIter.next_valid P)^[k])
      (slotIterBegin P root recurse rm)).cursors_ ∧
    ((((SlotIter.next_valid P)^[k])
        (slotIterBegin P root recurse rm)).cursors_ = [] ↔
      SlotIter.neq (((SlotIter.next_valid P)^[k])
        (slotIterBegin P root recurse rm)) SlotIter.endIter = false) := by
  have hmain : invStack (((SlotIter.next_valid P)^[k])
      (slotIterBegin P root recurse rm)).cursors_ := by
    induction k with
    | zero => simpa using invStack_begin P root recurse rm
    | succ k ih =>
      rw [Function.iterate_succ_apply']
      exact invStack_next_valid P ih
  refine ⟨hmain, ?_⟩
  constructor
  · intro h
    simp [SlotIter.neq, SlotIter.endIter, h]
  · intro h
    simp only [SlotIter.neq, SlotIter.endIter, List.isEmpty_nil, bne,
      Bool.not_eq_false'] at h
    rw [beq_iff_eq] at h
    exact List.isEmpty_iff.mp h

/-- Every element a view yields carries the cursor stack of a reachable
non-terminal iterator state, so it satisfies the full invariant. -/
theorem seqElems_stack_inv (P : Policy) :
    ∀ (f : Nat) {it : SlotIter}, invStack it.cursors_ →
      ∀ e ∈ seqElems P f it, invStack e.1 ∧ e.1 ≠ [] := by
  intro f
  induction f with
  | zero =>
    intro it h e he
    simp [seqElems] at he
  | succ f ih =>
    intro it h e he
    by_cases hnil : it.cursors_.isEmpty = true
    · rw [seqElems, if_pos hnil] at he
      simp at he
    · rw [seqElems, if_neg hnil] at he
      rcases List.mem_cons.mp he with hh | hh
      · subst hh
        refine ⟨h, ?_⟩
        intro hc
        dsimp only at hc
        exact hnil (by simp [hc, List.isEmpty_nil])
      · exact ih (invStack_next_valid P h) e hh

/-- C7: for every element yielded by a `Named<P>` view, the produced
name is the dot-joined concatenation of each stack frame's slot name in
root-to-current (vector) order; when the yield's stack is exactly one
frame and that frame is the sentinel cursor (`i_ = -1`, the root
container itself), the produced name is the empty string. -/
theorem c7_named_path (P : Policy) (l : slot_list)
    (e : List SlotCursor × IValue) (he : e ∈ slot_list.toList P l) :
    (∃ c, e.1 = [c] ∧ c.i_ = -1 ∧ NamedPolicy.createName e.1.reverse = "") ∨
    ((∀ c ∈ e.1, c.i_ ≠ -1) ∧
      NamedPolicy.createName e.1.reverse =
        String.intercalate "." (e.1.reverse.map nameFragment)) := by
  have he' : e ∈ seqElems P
      ((SlotIter.mk [⟨l.module_, if l.return_module_ then -1 else 0⟩]
        l.recurse_).measureR + 1)
      ((SlotIter.mk [⟨l.module_, if l.return_module_ then -1 else 0⟩]
        l.recurse_).skip P) := he
  have hinv : invStack e.1 ∧ e.1 ≠ [] :=
    seqElems_stack_inv P _
      (invStack_whileNotValidNext P _ (invStack_init l.module_ l.return_module_))
      e he'
  obtain ⟨hinv, hnonnil⟩ := hinv
  rcases hstack : e.1 with _ | ⟨c, rest⟩
  · exact absurd hstack hnonnil
  · rw [hstack] at hinv
    obtain ⟨⟨hc1, hc2⟩, hsent, hrest⟩ := hinv
    by_cases hcm : c.i_ = -1
    · left
      have hrnil : rest = [] := hsent hcm
      subst hrnil
      refine ⟨c, rfl, hcm, ?_⟩
      simp [NamedPolicy.createName, List.getLastD, hcm]
    · right
      have hnosent : ∀ c' ∈ (c :: rest), c'.i_ ≠ -1 := by
        intro c' hc'
        rcases List.mem_cons.mp hc' with h | h
        · subst h
          exact hcm
        · have := (hrest c' h).1
          omega
      constructor
      · exact hnosent
      · cases rest with
        | nil =>
          have hb : (c.i_ == -1) = false := by
            rw [beq_eq_false_iff_ne]
            exact hcm
          simp [NamedPolicy.createName, List.getLastD, hb,
            String.intercalate, String.intercalate.go]
        | cons c2 rest2 =>
          have hlen : ((c :: c2 :: rest2).reverse).length ≠ 1 := by simp
          simp [NamedPolicy.createName, hlen]

/-- Witness for C7 at the root-as-self element of a `named_modules()`
style view over an empty module. -/
theorem c7_named_path_witness :
    (([⟨Module.mk [], -1⟩], IValue.obj (Module.mk [])) ∈
      slot_list.toList ModulePolicy ⟨Module.mk [], true, true⟩) ∧
    ((∃ c, (([⟨Module.mk [], -1⟩], IValue.obj (Module.mk [])) :
        List SlotCursor × IValue).1 = [c] ∧ c.i_ = -1 ∧
        NamedPolicy.createName
          (([⟨Module.mk [], -1⟩], IValue.obj (Module.mk [])) :
            List SlotCursor × IValue).1.reverse = "") ∨
      ((∀ c ∈ (([⟨Module.mk [], -1⟩], IValue.obj (Module.mk [])) :
          List SlotCursor × IValue).1, c.i_ ≠ -1) ∧
        NamedPolicy.createName
          (([⟨Module.mk [], -1⟩], IValue.obj (Module.mk [])) :
            List SlotCursor × IValue).1.reverse =
          String.intercalate "."
            ((([⟨Module.mk [], -1⟩], IValue.obj (Module.mk [])) :
              List SlotCursor × IValue).1.reverse.map nameFragment))) := by
  have hmem : (([⟨Module.mk [], -1⟩], IValue.obj (Module.mk [])) :
      List SlotCursor × IValue) ∈
      slot_list.toList ModulePolicy ⟨Module.mk [], true, true⟩ := by
    simp [slot_list.toList, SlotIter.skip, SlotIter.measureR, stackMeasure,
      tcost, scostList, whileNotValidNext, seqElems, SlotIter.next_valid,
      SlotIter.next, SlotIter.validAt, SlotIter.return_module, SlotIter.cur,
      Module.slots, Module.numAttributes, Module.getSlot, ntcost]
  exact ⟨hmem, c7_named_path ModulePolicy ⟨Module.mk [], true, true⟩ _ hmem⟩

end TorchModule
